import Mathlib

/-!
Shallow embedding of the retrieval-and-ranking engine of LegalWorker
(src/api/app/services/rag_service.py), together with proofs of the
spec's claims about it.

Text is modelled as `List Char`, Python ints as `ℕ`/`ℤ` (Python ints are
unbounded), and floating-point scores as `ℚ` (the ranking and selection
algorithms are pure comparison/arithmetic over the score values).
-/

namespace LegalWorker

open List

/-! ## Chunker (`_chunk_pages`, rag_service.py lines 29-43) -/

/-- Python `str.strip()`: drop leading and trailing whitespace. -/
def pyStrip (t : List Char) : List Char :=
  ((t.dropWhile Char.isWhitespace).reverse.dropWhile Char.isWhitespace).reverse

/-- The inner `while start < L` loop of `_chunk_pages`, on one stripped page
`t`.  Each step emits `t[start:end]` with `end = min L (start + maxChars)`;
if `end == L` it stops, otherwise the new start is `end - overlap`
(Python's `max(0, end - overlap)` is `ℕ` truncated subtraction).
The loop is embedded with a fuel argument; `chunk_page` supplies
`t.length + 1`, which is enough fuel whenever the Python loop terminates
(each step advances `start` by `maxChars - overlap ≥ 1`). -/
def chunkGo (t : List Char) (maxChars overlap : ℕ) : ℕ → ℕ → List (List Char)
  | _, 0 => []
  | start, fuel + 1 =>
    if start < t.length then
      let e := min t.length (start + maxChars)
      let c := (t.drop start).take (e - start)
      if e = t.length then [c] else c :: chunkGo t maxChars overlap (e - overlap) fuel
    else []

/-- Chunks of a single page: strip, then run the window loop from 0. -/
def chunk_page (t : List Char) (maxChars overlap : ℕ) : List (List Char) :=
  let s := pyStrip t
  chunkGo s maxChars overlap 0 (s.length + 1)

/-- The outer `for i, txt in enumerate(pages)` loop: pages whose stripped
text is empty contribute nothing (`chunkGo` from 0 on an empty list is `[]`),
other pages contribute their windows tagged with the 1-based page number. -/
def chunkPagesGo (maxChars overlap : ℕ) : List (List Char) → ℕ → List (ℕ × List Char)
  | [], _ => []
  | p :: ps, i =>
    (chunk_page p maxChars overlap).map (fun c => (i + 1, c)) ++
      chunkPagesGo maxChars overlap ps (i + 1)

/-- `_chunk_pages(pages, max_chars, overlap)`. -/
def chunk_pages (pages : List (List Char)) (maxChars overlap : ℕ) : List (ℕ × List Char) :=
  chunkPagesGo maxChars overlap pages 0

/-- Same loop as `chunkGo` but recording the `(start, end)` window offsets
instead of the character slices. -/
def chunkOffsetsGo (L maxChars overlap : ℕ) : ℕ → ℕ → List (ℕ × ℕ)
  | _, 0 => []
  | start, fuel + 1 =>
    if start < L then
      let e := min L (start + maxChars)
      if e = L then [(start, e)] else (start, e) :: chunkOffsetsGo L maxChars overlap (e - overlap) fuel
    else []

/-- Window offsets of one stripped page. -/
def chunk_offsets (t : List Char) (maxChars overlap : ℕ) : List (ℕ × ℕ) :=
  chunkOffsetsGo t.length maxChars overlap 0 (t.length + 1)

/-- `chunkGo` emits exactly the slices of the windows that `chunkOffsetsGo`
records. -/
theorem chunkGo_eq_map_offsets (t : List Char) (maxChars overlap : ℕ) :
    ∀ fuel start, chunkGo t maxChars overlap start fuel =
      (chunkOffsetsGo t.length maxChars overlap start fuel).map
        (fun se => (t.drop se.1).take (se.2 - se.1)) := by
  intro fuel
  induction fuel with
  | zero => intro start; rfl
  | succ n ih =>
    intro start
    simp only [chunkGo, chunkOffsetsGo]
    by_cases h : start < t.length
    · simp only [h, if_true]
      by_cases he : min t.length (start + maxChars) = t.length
      · simp [he]
      · simp [he, ih]
    · simp [h]

/-- Unfolding step for `chunkGo` at a successor fuel value. -/
theorem chunkGo_succ (t : List Char) (mx ov start fuel : ℕ) :
    chunkGo t mx ov start (fuel + 1) =
      if start < t.length then
        let e := min t.length (start + mx)
        let c := (t.drop start).take (e - start)
        if e = t.length then [c] else c :: chunkGo t mx ov (e - ov) fuel
      else [] := rfl

/-- Every slice emitted by the window loop is non-empty and at most
`maxChars` characters long, provided `maxChars ≥ 1`. -/
theorem chunkGo_bounded (t : List Char) (mx ov : ℕ) (hmx : 1 ≤ mx) :
    ∀ fuel start c, c ∈ chunkGo t mx ov start fuel → c ≠ [] ∧ c.length ≤ mx := by
  intro fuel
  induction fuel with
  | zero => intro start c hc; simp [chunkGo] at hc
  | succ n ih =>
    intro start c hc
    rw [chunkGo_succ] at hc
    by_cases h : start < t.length
    · simp only [h, if_true] at hc
      have hkey : ((t.drop start).take (min t.length (start + mx) - start) ≠ [] ∧
          ((t.drop start).take (min t.length (start + mx) - start)).length ≤ mx) := by
        constructor
        · apply List.ne_nil_of_length_pos
          rw [List.length_take, List.length_drop]
          have h1 : start + 1 ≤ min t.length (start + mx) :=
            le_min h (by omega)
          omega
        · rw [List.length_take]
          have h2 : min t.length (start + mx) ≤ start + mx := min_le_right _ _
          omega
      by_cases he : min t.length (start + mx) = t.length
      · simp only [he, if_true, List.mem_singleton] at hc
        subst hc
        simpa [he] using hkey
      · simp only [he, if_false, List.mem_cons] at hc
        rcases hc with rfl | hc
        · exact hkey
        · exact ih _ _ hc
    · simp [h] at hc

/-- Helper: chunks emitted by the page loop all come from `chunk_page`. -/
theorem chunkPagesGo_bounded (mx ov : ℕ) (hmx : 1 ≤ mx) :
    ∀ pages i pr, pr ∈ chunkPagesGo mx ov pages i → pr.2 ≠ [] ∧ pr.2.length ≤ mx := by
  intro pages
  induction pages with
  | nil => intro i pr hpr; simp [chunkPagesGo] at hpr
  | cons p ps ih =>
    intro i pr hpr
    simp only [chunkPagesGo, List.mem_append, List.mem_map] at hpr
    rcases hpr with ⟨c, hc, rfl⟩ | hpr
    · exact chunkGo_bounded (pyStrip p) mx ov hmx _ _ c hc
    · exact ih _ _ hpr

/-- C4: for every input page list and every configuration with
`max_chars ≥ 1`, every `(page, text)` pair emitted by `_chunk_pages` has a
non-empty text of at most `max_chars` characters. -/
theorem chunk_pages_nonempty_le_max (pages : List (List Char)) (mx ov : ℕ)
    (hmx : 1 ≤ mx) :
    ∀ pr ∈ chunk_pages pages mx ov, pr.2 ≠ [] ∧ pr.2.length ≤ mx := by
  intro pr hpr
  exact chunkPagesGo_bounded mx ov hmx pages 0 pr hpr

/-- Witness for C4 at the concrete page list `["abc"]` with
`max_chars = 2`, `overlap = 1`. -/
theorem chunk_pages_nonempty_le_max_witness :
    (1 ≤ 2 ∧ ((1 : ℕ), ['a', 'b']) ∈ chunk_pages [['a', 'b', 'c']] 2 1) ∧
      (((1 : ℕ), ['a', 'b']).2 ≠ [] ∧ ((1 : ℕ), ['a', 'b']).2.length ≤ 2) :=
  ⟨⟨by decide, by decide⟩,
    chunk_pages_nonempty_le_max [['a', 'b', 'c']] 2 1 (by decide) _ (by decide)⟩

/-- A non-empty offsets list starts at the requested `start` position. -/
theorem chunkOffsetsGo_head_fst (L mx ov : ℕ) :
    ∀ fuel start, chunkOffsetsGo L mx ov start fuel ≠ [] →
      ((chunkOffsetsGo L mx ov start fuel).getD 0 (0, 0)).1 = start := by
  intro fuel start hne
  match fuel with
  | 0 => simp [chunkOffsetsGo] at hne
  | n + 1 =>
    simp only [chunkOffsetsGo] at hne ⊢
    by_cases h : start < L
    · simp only [h, if_true] at hne ⊢
      by_cases he : min L (start + mx) = L
      · simp [he]
      · simp [he]
    · simp [h] at hne

/-- Consecutive windows recorded by the offsets loop: when `overlap < maxChars`,
each window's start is exactly `overlap` characters before the previous
window's end. -/
theorem chunkOffsetsGo_consec (L mx ov : ℕ) (hov : ov < mx) :
    ∀ fuel start j, j + 1 < (chunkOffsetsGo L mx ov start fuel).length →
      ((chunkOffsetsGo L mx ov start fuel).getD j (0, 0)).2 -
        ((chunkOffsetsGo L mx ov start fuel).getD (j + 1) (0, 0)).1 = ov := by
  intro fuel
  induction fuel with
  | zero => intro start j hj; simp [chunkOffsetsGo] at hj
  | succ n ih =>
    intro start j hj
    simp only [chunkOffsetsGo] at hj ⊢
    by_cases h : start < L
    · simp only [h, if_true] at hj ⊢
      by_cases he : min L (start + mx) = L
      · simp [he] at hj
      · simp only [he, if_false] at hj ⊢
        match j with
        | 0 =>
          have hne : chunkOffsetsGo L mx ov (min L (start + mx) - ov) n ≠ [] := by
            simp only [List.length_cons] at hj
            exact List.ne_nil_of_length_pos (by omega)
          have hhd := chunkOffsetsGo_head_fst L mx ov n (min L (start + mx) - ov) hne
          simp only [List.getD_cons_zero, List.getD_cons_succ, hhd]
          have hee : min L (start + mx) = start + mx := by
            rcases Nat.lt_or_ge (start + mx) L with hlt | hge
            · exact min_eq_right (le_of_lt hlt)
            · exact absurd (min_eq_left hge) he
          omega
        | jj + 1 =>
          simp only [List.getD_cons_succ]
          apply ih
          simp only [List.length_cons] at hj
          omega
    · simp [h] at hj

/-- C5: for every page and every pair of consecutive chunks emitted from that
page by the chunker (configuration with `overlap < max_chars`, the regime in
which the source loop terminates whenever it emits two chunks from one page),
the second chunk's start precedes the first chunk's end by exactly the
configured overlap; the chunk texts are exactly the slices of these recorded
windows. -/
theorem chunk_overlap_invariant (t : List Char) (mx ov : ℕ) (hov : ov < mx) :
    (chunk_page t mx ov = (chunk_offsets (pyStrip t) mx ov).map
        (fun se => ((pyStrip t).drop se.1).take (se.2 - se.1))) ∧
    ∀ j, j + 1 < (chunk_offsets (pyStrip t) mx ov).length →
      ((chunk_offsets (pyStrip t) mx ov).getD j (0, 0)).2 -
        ((chunk_offsets (pyStrip t) mx ov).getD (j + 1) (0, 0)).1 = ov := by
  constructor
  · exact chunkGo_eq_map_offsets (pyStrip t) mx ov _ 0
  · intro j hj
    exact chunkOffsetsGo_consec (pyStrip t).length mx ov hov _ 0 j hj

/-- Witness for C5 at the concrete page `"abcde"` with `max_chars = 3`,
`overlap = 1`. -/
theorem chunk_overlap_invariant_witness :
    (1 < 3) ∧
    ((chunk_page ['a', 'b', 'c', 'd', 'e'] 3 1 =
        (chunk_offsets (pyStrip ['a', 'b', 'c', 'd', 'e']) 3 1).map
          (fun se => ((pyStrip ['a', 'b', 'c', 'd', 'e']).drop se.1).take (se.2 - se.1))) ∧
      ∀ j, j + 1 < (chunk_offsets (pyStrip ['a', 'b', 'c', 'd', 'e']) 3 1).length →
        ((chunk_offsets (pyStrip ['a', 'b', 'c', 'd', 'e']) 3 1).getD j (0, 0)).2 -
          ((chunk_offsets (pyStrip ['a', 'b', 'c', 'd', 'e']) 3 1).getD (j + 1) (0, 0)).1 = 1) :=
  ⟨by decide, chunk_overlap_invariant ['a', 'b', 'c', 'd', 'e'] 3 1 (by decide)⟩

/-- The window loop on a 4000-character page with `max_chars = 1800`,
`overlap = 200` emits exactly the windows `[0,1800)`, `[1600,3400)`,
`[3200,4000)`. -/
theorem chunkGo_len4000 (s : List Char) (h : s.length = 4000) :
    chunkGo s 1800 200 0 (s.length + 1) =
      [(s.drop 0).take 1800, (s.drop 1600).take 1800, (s.drop 3200).take 800] := by
  rw [h]
  rw [show (4000 : ℕ) + 1 = 4000 + 1 from rfl, chunkGo_succ, h]
  norm_num
  rw [show (4000 : ℕ) = 3999 + 1 from rfl, chunkGo_succ, h]
  norm_num
  rw [show (3999 : ℕ) = 3998 + 1 from rfl, chunkGo_succ, h]
  norm_num

/-- C3: for a two-page input whose first page has 4000 characters after
stripping and whose second page is blank, chunking with `max_chars = 1800`
and `overlap = 200` emits exactly three chunks, all tagged page 1, equal to
the character windows `[0,1800)`, `[1600,3400)`, `[3200,4000)` of page 1's
stripped text, and no chunk for page 2. -/
theorem chunk_two_page_scenario (p1 p2 : List Char)
    (h1 : (pyStrip p1).length = 4000) (h2 : pyStrip p2 = []) :
    chunk_pages [p1, p2] 1800 200 =
      [(1, ((pyStrip p1).drop 0).take 1800),
       (1, ((pyStrip p1).drop 1600).take 1800),
       (1, ((pyStrip p1).drop 3200).take 800)] := by
  simp only [chunk_pages, chunkPagesGo, chunk_page]
  rw [chunkGo_len4000 (pyStrip p1) h1, h2]
  simp [chunkGo]

/-- `dropWhile` leaves a replicated list unchanged when the predicate
rejects the replicated character. -/
theorem dropWhile_replicate_of_not (p : Char → Bool) (c : Char) (h : p c = false) (n : ℕ) :
    List.dropWhile p (List.replicate n c) = List.replicate n c := by
  cases n with
  | zero => rfl
  | succ m => simp [List.replicate_succ, List.dropWhile_cons, h]

/-- Stripping a page of 4000 letters `a` leaves it unchanged. -/
theorem pyStrip_replicate (n : ℕ) : pyStrip (List.replicate n 'a') = List.replicate n 'a' := by
  unfold pyStrip
  rw [dropWhile_replicate_of_not _ _ (by decide), List.reverse_replicate,
      dropWhile_replicate_of_not _ _ (by decide), List.reverse_replicate]

/-- Witness for C3: a concrete first page of 4000 letters `a` and a blank
(single-space) second page. -/
theorem chunk_two_page_scenario_witness :
    ((pyStrip (List.replicate 4000 'a')).length = 4000 ∧ pyStrip [' '] = []) ∧
      chunk_pages [List.replicate 4000 'a', [' ']] 1800 200 =
        [(1, ((pyStrip (List.replicate 4000 'a')).drop 0).take 1800),
         (1, ((pyStrip (List.replicate 4000 'a')).drop 1600).take 1800),
         (1, ((pyStrip (List.replicate 4000 'a')).drop 3200).take 800)] :=
  ⟨⟨by rw [pyStrip_replicate, List.length_replicate], by decide⟩,
    chunk_two_page_scenario (List.replicate 4000 'a') [' ']
      (by rw [pyStrip_replicate, List.length_replicate]) (by decide)⟩

/-! ## Embedding Index Store (`index_document`, rag_service.py lines 61-91) -/

/-- The persisted per-document record: three parallel arrays. -/
structure IndexFile where
  texts : List (List Char)
  pages : List ℕ
  embeddings : List (List ℚ)

/-- Observable file-system effects of the store.  `writeText` is
`Path.write_text` (open the final path and write into it in place);
`replaceFile` is an atomic rename such as `os.replace` — the source never
performs one, but the constructor is needed to state what
write-to-temp-then-replace would look like. -/
inductive FsOp where
  | writeText (path : String) (content : IndexFile)
  | replaceFile (src dst : String)

/-- `VEC_DIR / f"{doc_id}.json"`. -/
def index_path (docId : String) : String :=
  "storage/vectors/" ++ docId ++ ".json"

/-- `index_document`, from PDF page extraction onwards: the extracted page
texts and the embedding provider are inputs.  Returns the call's outcome
(`ok` with the chunk count, or the provider's error, which the source
re-raises) together with the list of file-system operations performed. -/
def index_document (docId : String) (pages : List (List Char))
    (embed : List (List Char) → Except String (List (List ℚ))) :
    Except String ℕ × List FsOp :=
  let chunks := chunk_pages pages 1800 200
  if chunks = [] then
    (Except.ok 0, [FsOp.writeText (index_path docId) ⟨[], [], []⟩])
  else
    let texts := chunks.map Prod.snd
    let pagesArr := chunks.map Prod.fst
    match embed texts with
    | Except.error e => (Except.error e, [])
    | Except.ok vecs =>
      (Except.ok texts.length, [FsOp.writeText (index_path docId) ⟨texts, pagesArr, vecs⟩])

/-- Stated from the spec's words: "writes the three parallel arrays
atomically (write-to-temp-then-replace semantics)" / "written as a single
atomic replace" — the trace writes the record to a temporary path distinct
from the final one and installs it with a single atomic replace. -/
def writesAtomicallyVia (finalPath : String) (ops : List FsOp) : Prop :=
  ∃ tmp content, tmp ≠ finalPath ∧
    ops = [FsOp.writeText tmp content, FsOp.replaceFile tmp finalPath]

/-- C1 counterexample: on a concrete successful one-page build the source
performs a single direct `write_text` to the final index path, which is not
a write-to-temp-then-replace trace. -/
theorem index_document_not_temp_then_replace :
    ¬ writesAtomicallyVia (index_path "doc")
        (index_document "doc" [['a']]
          (fun ts => Except.ok (ts.map (fun _ => ([1] : List ℚ))))).2 := by
  intro hcontra
  rcases hcontra with ⟨tmp, content, hne, heq⟩
  have : (index_document "doc" [['a']]
      (fun ts => Except.ok (ts.map (fun _ => ([1] : List ℚ))))).2 =
      [FsOp.writeText (index_path "doc") ⟨[['a']], [1], [[1]]⟩] := rfl
  rw [this] at heq
  simp at heq

/-- C1 (amended): `index_document` persists the three parallel arrays with a
single direct write to the final index path — the complete record is written
in one `write_text` call, with no temporary file and no rename. -/
theorem index_document_single_direct_write (docId : String)
    (pages : List (List Char))
    (embed : List (List Char) → Except String (List (List ℚ)))
    (vecs : List (List ℚ))
    (hne : chunk_pages pages 1800 200 ≠ [])
    (hok : embed ((chunk_pages pages 1800 200).map Prod.snd) = Except.ok vecs) :
    (index_document docId pages embed).2 =
      [FsOp.writeText (index_path docId)
        ⟨(chunk_pages pages 1800 200).map Prod.snd,
         (chunk_pages pages 1800 200).map Prod.fst, vecs⟩] := by
  simp only [index_document, hne, if_false, hok]

/-- Witness for the amended C1 at a concrete one-page document. -/
theorem index_document_single_direct_write_witness :
    (chunk_pages [['a']] 1800 200 ≠ [] ∧
      (fun ts : List (List Char) =>
          (Except.ok (ts.map (fun _ => ([1] : List ℚ))) :
            Except String (List (List ℚ))))
          ((chunk_pages [['a']] 1800 200).map Prod.snd) =
        Except.ok ((chunk_pages [['a']] 1800 200).map (fun _ => ([1] : List ℚ)))) ∧
    (index_document "doc" [['a']]
        (fun ts => Except.ok (ts.map (fun _ => ([1] : List ℚ))))).2 =
      [FsOp.writeText (index_path "doc")
        ⟨(chunk_pages [['a']] 1800 200).map Prod.snd,
         (chunk_pages [['a']] 1800 200).map Prod.fst,
         (chunk_pages [['a']] 1800 200).map (fun _ => ([1] : List ℚ))⟩] :=
  ⟨⟨by decide, by rfl⟩,
    index_document_single_direct_write "doc" [['a']] _ _ (by decide) (by rfl)⟩

/-- C2: if the document's chunk list is non-empty and the embedding provider
fails, `index_document` propagates that failure and performs no file-system
write at all — the previously persisted index (or its absence) is untouched. -/
theorem index_document_abort_on_embed_failure (docId : String)
    (pages : List (List Char))
    (embed : List (List Char) → Except String (List (List ℚ)))
    (e : String)
    (hne : chunk_pages pages 1800 200 ≠ [])
    (herr : embed ((chunk_pages pages 1800 200).map Prod.snd) = Except.error e) :
    index_document docId pages embed = (Except.error e, []) := by
  simp only [index_document, hne, if_false, herr]

/-- Witness for C2 at a concrete one-page document with an always-failing
provider. -/
theorem index_document_abort_on_embed_failure_witness :
    (chunk_pages [['a']] 1800 200 ≠ [] ∧
      (fun _ : List (List Char) =>
          (Except.error "boom" : Except String (List (List ℚ))))
          ((chunk_pages [['a']] 1800 200).map Prod.snd) =
        Except.error "boom") ∧
    index_document "doc" [['a']]
        (fun _ => (Except.error "boom" : Except String (List (List ℚ)))) =
      (Except.error "boom", []) :=
  ⟨⟨by decide, by rfl⟩,
    index_document_abort_on_embed_failure "doc" [['a']] _ "boom" (by decide) (by rfl)⟩

/-! ## Similarity ordering

`rag_service.py` defines `answer_question` twice; the second definition
(line 292) shadows the first at module load and is the one the API calls.
The live candidate ordering is `np.argsort(-sims)` (line 321), whose default
quicksort leaves the relative order of tied scores unspecified; only the
shadowed first definition sorts with Python's stable
`sorted(range(len(sims)), key=lambda i: sims[i], reverse=True)` (line 276).
The definitions below embed that stable descending ordering — the unique
sort by (score descending, original index ascending).  They are used in this
development as the reference ordering against which the MMR `λ = 1`
degeneration is stated, not as an embedding of the live ranker.

Scores are modelled over `ℚ`; the callers normalize vectors upstream
(`_norm`), so the dot product below is the cosine similarity. -/

/-- Dot product of two vectors. -/
def dot (a b : List ℚ) : ℚ := (List.zipWith (· * ·) a b).sum

/-- The stable descending comparison: index `i` comes no later than `j` when
its score is higher, or the scores tie and `i` is the earlier original
index. -/
def simOrd (sims : List ℚ) (i j : ℕ) : Prop :=
  sims.getD j 0 < sims.getD i 0 ∨ (sims.getD i 0 = sims.getD j 0 ∧ i ≤ j)

instance (sims : List ℚ) : DecidableRel (simOrd sims) := fun i j => by
  unfold simOrd; infer_instance

instance (sims : List ℚ) : IsTotal ℕ (simOrd sims) where
  total i j := by
    unfold simOrd
    rcases lt_trichotomy (sims.getD i 0) (sims.getD j 0) with h | h | h
    · exact Or.inr (Or.inl h)
    · rcases Nat.le_total i j with hij | hij
      · exact Or.inl (Or.inr ⟨h, hij⟩)
      · exact Or.inr (Or.inr ⟨h.symm, hij⟩)
    · exact Or.inl (Or.inl h)

instance (sims : List ℚ) : IsTrans ℕ (simOrd sims) where
  trans i j k hij hjk := by
    unfold simOrd at *
    rcases hij with h1 | ⟨h1, h1'⟩ <;> rcases hjk with h2 | ⟨h2, h2'⟩
    · exact Or.inl (h2.trans h1)
    · exact Or.inl (h2 ▸ h1)
    · exact Or.inl (h1 ▸ h2)
    · exact Or.inr ⟨h1.trans h2, h1'.trans h2'⟩

instance (sims : List ℚ) : IsAntisymm ℕ (simOrd sims) where
  antisymm i j hij hji := by
    unfold simOrd at *
    rcases hij with h1 | ⟨h1, h1'⟩ <;> rcases hji with h2 | ⟨h2, h2'⟩
    · exact absurd h1 (not_lt_of_lt h2)
    · exact absurd h1 (h2 ▸ lt_irrefl _)
    · exact absurd h2 (h1 ▸ lt_irrefl _)
    · exact Nat.le_antisymm h1' h2'

/-- The stable descending similarity ordering of all indices into `sims`:
the unique permutation of `range sims.length` sorted by `simOrd`. -/
def rank_by_sim (sims : List ℚ) : List ℕ :=
  List.insertionSort (simOrd sims) (List.range sims.length)

/-- `sims = E @ qv` followed by the stable descending ordering. -/
def rank_chunks (E : List (List ℚ)) (qv : List ℚ) : List ℕ :=
  rank_by_sim (E.map (fun row => dot row qv))

/-! ## MMR Diversifier (`_mmr_indices`, rag_service.py lines 100-131)

The Python candidate pool is `set(range(N))` with elements removed as they
are selected; CPython iterates such small-integer sets in ascending numeric
order, so the pool is modelled as an ascending list. -/

/-- `np.argmax` / the scan `if (max_div is None) or (score > max_div)`:
first element reached with the strictly greatest key wins; `0` for an empty
list (never consulted on empty input). -/
def argmaxFirst (f : ℕ → ℚ) : List ℕ → ℕ
  | [] => 0
  | x :: xs => xs.foldl (fun b j => if f b < f j then j else b) x

/-- The fold underlying `argmaxFirst` returns its seed or a list element. -/
theorem argmaxFirst_foldl_mem (f : ℕ → ℚ) :
    ∀ (xs : List ℕ) (a : ℕ),
      xs.foldl (fun b j => if f b < f j then j else b) a ∈ a :: xs := by
  intro xs
  induction xs with
  | nil => intro a; simp
  | cons x rest ih =>
    intro a
    simp only [List.foldl_cons]
    by_cases h : f a < f x
    · simp only [h, if_true]
      have := ih x
      simp only [List.mem_cons] at this ⊢
      tauto
    · simp only [h, if_false]
      have := ih a
      simp only [List.mem_cons] at this ⊢
      tauto

/-- `argmaxFirst` of a non-empty list is a member. -/
theorem argmaxFirst_mem (f : ℕ → ℚ) (x : ℕ) (xs : List ℕ) :
    argmaxFirst f (x :: xs) ∈ x :: xs :=
  argmaxFirst_foldl_mem f xs x

/-- Python `max` over a non-empty list (0 for the empty list, never used). -/
def maxD : List ℚ → ℚ
  | [] => 0
  | x :: xs => xs.foldl max x

/-- `score = lam * sims[j] - (1 - lam) * max(E[j] @ E[s] for s in selected)`. -/
def mmrScore (E : List (List ℚ)) (sims : List ℚ) (lam : ℚ)
    (selected : List ℕ) (j : ℕ) : ℚ :=
  lam * sims.getD j 0 -
    (1 - lam) * maxD (selected.map (fun s => dot (E.getD j []) (E.getD s [])))

/-- The `while len(selected) < k and candidates` loop of `_mmr_indices`. -/
def mmrGo (E : List (List ℚ)) (sims : List ℚ) (lam : ℚ) (k : ℕ) :
    List ℕ → List ℕ → List ℕ
  | selected, [] => selected
  | selected, c0 :: cs =>
    if selected.length < k then
      mmrGo E sims lam k
        (selected ++ [argmaxFirst (mmrScore E sims lam selected) (c0 :: cs)])
        ((c0 :: cs).erase (argmaxFirst (mmrScore E sims lam selected) (c0 :: cs)))
    else selected
termination_by _ candidates => candidates.length
decreasing_by
  simp only [List.length_erase_of_mem
    (argmaxFirst_mem (mmrScore E sims lam selected) c0 cs), List.length_cons]
  omega

/-- `_mmr_indices(E, qv, k, lam)`. -/
def mmr_indices (E : List (List ℚ)) (qv : List ℚ) (k : ℕ) (lam : ℚ) : List ℕ :=
  let N := E.length
  if N = 0 then []
  else
    let k := min k N
    let sims := E.map (fun row => dot row qv)
    let i0 := argmaxFirst (fun j => sims.getD j 0) (List.range N)
    mmrGo E sims lam k [i0] ((List.range N).erase i0)

/-- `argmaxFirst` of any non-empty list is a member. -/
theorem argmaxFirst_mem_of_ne_nil (f : ℕ → ℚ) (l : List ℕ) (h : l ≠ []) :
    argmaxFirst f l ∈ l := by
  match l with
  | [] => exact absurd rfl h
  | x :: xs => exact argmaxFirst_mem f x xs

/-- Selection-loop invariant: when the target count equals the number of yet
unselected candidates plus the already selected ones, the loop consumes the
whole pool, and the result is a permutation of `selected ++ candidates`. -/
theorem mmrGo_perm (E : List (List ℚ)) (sims : List ℚ) (lam : ℚ) :
    ∀ (n : ℕ) (cand : List ℕ), cand.length = n → ∀ (sel : List ℕ),
      List.Perm (mmrGo E sims lam (sel.length + n) sel cand) (sel ++ cand) := by
  intro n
  induction n with
  | zero =>
    intro cand hlen sel
    have hc : cand = [] := List.eq_nil_of_length_eq_zero hlen
    subst hc
    simp [mmrGo]
  | succ m ih =>
    intro cand hlen sel
    match cand with
    | c0 :: cs =>
      have hb := argmaxFirst_mem (mmrScore E sims lam sel) c0 cs
      set b := argmaxFirst (mmrScore E sims lam sel) (c0 :: cs) with hbdef
      have hlt : sel.length < sel.length + (m + 1) := by omega
      have hlen' : ((c0 :: cs).erase b).length = m := by
        rw [List.length_erase_of_mem hb]
        simp only [List.length_cons] at hlen ⊢
        omega
      have hkeq : sel.length + (m + 1) = (sel ++ [b]).length + m := by
        simp only [List.length_append, List.length_cons, List.length_nil]
        omega
      have step : mmrGo E sims lam (sel.length + (m + 1)) sel (c0 :: cs) =
          mmrGo E sims lam (sel.length + (m + 1)) (sel ++ [b])
            ((c0 :: cs).erase b) := by
        simp only [mmrGo, hlt, if_true, hbdef]
      rw [step, hkeq]
      have h1 := ih ((c0 :: cs).erase b) hlen' (sel ++ [b])
      refine h1.trans ?_
      rw [List.append_assoc]
      refine List.Perm.append_left sel ?_
      exact (List.perm_cons_erase hb).symm

/-- C8: for every non-empty candidate matrix of `N` vectors and every
requested count `k ≥ N`, MMR selection returns each of the `N` candidate
indices exactly once — a permutation of `range N`, with count 1 for every
candidate index and 0 for every other index. -/
theorem mmr_returns_all_once (E : List (List ℚ)) (qv : List ℚ) (k : ℕ)
    (lam : ℚ) (hE : E ≠ []) (hk : E.length ≤ k) :
    List.Perm (mmr_indices E qv k lam) (List.range E.length) ∧
    ∀ i, (mmr_indices E qv k lam).count i = if i < E.length then 1 else 0 := by
  have hN : ¬ E.length = 0 := by
    intro h; exact hE (List.eq_nil_of_length_eq_zero h)
  have hperm : List.Perm (mmr_indices E qv k lam) (List.range E.length) := by
    rw [mmr_indices]
    simp only [hN, if_false]
    set sims := E.map (fun row => dot row qv) with hsims
    set i0 := argmaxFirst (fun j => sims.getD j 0) (List.range E.length) with hi0
    have hmem : i0 ∈ List.range E.length := by
      rw [hi0]
      apply argmaxFirst_mem_of_ne_nil
      intro hnil
      have := List.length_range E.length
      rw [hnil] at this
      simp at this
      omega
    have hlen' : ((List.range E.length).erase i0).length = E.length - 1 := by
      rw [List.length_erase_of_mem hmem, List.length_range]
    have hkeq : min k E.length = [i0].length + (E.length - 1) := by
      rw [min_eq_right hk]
      simp only [List.length_cons, List.length_nil]
      omega
    rw [hkeq]
    refine (mmrGo_perm E sims lam _ _ hlen' [i0]).trans ?_
    have : List.Perm (List.range E.length)
        (i0 :: (List.range E.length).erase i0) := List.perm_cons_erase hmem
    exact this.symm
  refine ⟨hperm, ?_⟩
  intro i
  rw [hperm.count_eq i]
  by_cases hi : i < E.length
  · rw [if_pos hi]
    exact List.count_eq_one_of_mem (List.nodup_range _) (List.mem_range.mpr hi)
  · rw [if_neg hi]
    rw [List.count_eq_zero_of_not_mem]
    intro hmem
    exact hi (List.mem_range.mp hmem)

/-- Witness for C8 at the concrete matrix `[[1],[0]]`, query `[1]`, `k = 5`,
`λ = 3/10`. -/
theorem mmr_returns_all_once_witness :
    (([[(1 : ℚ)], [0]] : List (List ℚ)) ≠ [] ∧
      ([[(1 : ℚ)], [0]] : List (List ℚ)).length ≤ 5) ∧
    (List.Perm (mmr_indices [[(1 : ℚ)], [0]] [1] 5 (3 / 10)) (List.range 2) ∧
      ∀ i, (mmr_indices [[(1 : ℚ)], [0]] [1] 5 (3 / 10)).count i =
        if i < ([[(1 : ℚ)], [0]] : List (List ℚ)).length then 1 else 0) :=
  ⟨⟨by decide, by decide⟩,
    mmr_returns_all_once [[(1 : ℚ)], [0]] [1] 5 (3 / 10)
      (by decide) (by decide)⟩

/-- First-maximum fold: every scanned element either scores strictly below
the fold's result, or ties with it and sits no earlier than it (the input
being index-ascending). -/
theorem argmaxFirst_foldl_spec (f : ℕ → ℚ) :
    ∀ (xs : List ℕ) (a : ℕ), List.Pairwise (· < ·) (a :: xs) →
      ∀ y ∈ a :: xs,
        f y < f (xs.foldl (fun b j => if f b < f j then j else b) a) ∨
        (f y = f (xs.foldl (fun b j => if f b < f j then j else b) a) ∧
          xs.foldl (fun b j => if f b < f j then j else b) a ≤ y) := by
  intro xs
  induction xs with
  | nil =>
    intro a _ y hy
    simp only [List.foldl_nil]
    simp only [List.mem_singleton] at hy
    subst hy
    exact Or.inr ⟨rfl, le_refl _⟩
  | cons x rest ih =>
    intro a hp y hy
    rw [List.pairwise_cons] at hp
    obtain ⟨hax, hp'⟩ := hp
    simp only [List.foldl_cons]
    by_cases hfx : f a < f x
    · simp only [hfx, if_true]
      simp only [List.mem_cons] at hy
      rcases hy with rfl | hy
      · have hx := ih x hp' x (List.mem_cons_self x rest)
        rcases hx with h | ⟨h, _⟩
        · exact Or.inl (hfx.trans h)
        · exact Or.inl (h ▸ hfx)
      · exact ih x hp' y (by simpa using hy)
    · simp only [hfx, if_false]
      have hp'' : List.Pairwise (· < ·) (a :: rest) := by
        rw [List.pairwise_cons]
        rw [List.pairwise_cons] at hp'
        exact ⟨fun y hy => hax y (List.mem_cons_of_mem x hy), hp'.2⟩
      simp only [List.mem_cons] at hy
      rcases hy with rfl | rfl | hy
      · exact ih y hp'' y (List.mem_cons_self y rest)
      · have ha := ih a hp'' a (List.mem_cons_self a rest)
        have hxa : f y ≤ f a := le_of_not_lt hfx
        rcases ha with h | ⟨h, h'⟩
        · exact Or.inl (lt_of_le_of_lt hxa h)
        · rcases lt_or_eq_of_le hxa with h2 | h2
          · exact Or.inl (h ▸ h2)
          · refine Or.inr ⟨h2.trans h, ?_⟩
            have : a < y := hax y (List.mem_cons_self y rest)
            omega
      · exact ih a hp'' y (List.mem_cons_of_mem a hy)

/-- On an ascending candidate list, the first-maximum scan is the least
element in the `simOrd` ordering. -/
theorem argmaxFirst_simOrd (sims : List ℚ) (c : List ℕ)
    (hp : List.Pairwise (· < ·) c) :
    ∀ y ∈ c, simOrd sims (argmaxFirst (fun j => sims.getD j 0) c) y := by
  match c with
  | [] => intro y hy; simp at hy
  | c0 :: cs =>
    intro y hy
    have hspec := argmaxFirst_foldl_spec (fun j => sims.getD j 0) cs c0 hp y hy
    unfold simOrd argmaxFirst
    rcases hspec with h | ⟨h, h'⟩
    · exact Or.inl h
    · exact Or.inr ⟨h.symm, h'⟩

/-- Repeated first-maximum extraction (the shape `_mmr_indices` takes with
`λ = 1`, where the diversity penalty vanishes). -/
def greedyPick (f : ℕ → ℚ) : ℕ → List ℕ → List ℕ
  | 0, _ => []
  | _ + 1, [] => []
  | n + 1, c0 :: cs =>
    argmaxFirst f (c0 :: cs) ::
      greedyPick f n ((c0 :: cs).erase (argmaxFirst f (c0 :: cs)))

/-- With `λ = 1` the diversity penalty is multiplied by 0: the selection
score is just the similarity. -/
theorem mmrScore_lam_one (E : List (List ℚ)) (sims : List ℚ) (sel : List ℕ) :
    mmrScore E sims 1 sel = fun j => sims.getD j 0 := by
  funext j
  unfold mmrScore
  ring

/-- With `λ = 1` the selection loop is repeated first-maximum extraction by
similarity. -/
theorem mmrGo_lam_one (E : List (List ℚ)) (sims : List ℚ) :
    ∀ (n : ℕ) (sel cand : List ℕ),
      mmrGo E sims 1 (sel.length + n) sel cand =
        sel ++ greedyPick (fun j => sims.getD j 0) n cand := by
  intro n
  induction n with
  | zero =>
    intro sel cand
    match cand with
    | [] => simp [mmrGo, greedyPick]
    | c0 :: cs => simp [mmrGo, greedyPick]
  | succ m ih =>
    intro sel cand
    match cand with
    | [] => simp [mmrGo, greedyPick]
    | c0 :: cs =>
      have hlt : sel.length < sel.length + (m + 1) := by omega
      have hscore := mmrScore_lam_one E sims sel
      have step : mmrGo E sims 1 (sel.length + (m + 1)) sel (c0 :: cs) =
          mmrGo E sims 1 (sel.length + (m + 1))
            (sel ++ [argmaxFirst (fun j => sims.getD j 0) (c0 :: cs)])
            ((c0 :: cs).erase (argmaxFirst (fun j => sims.getD j 0) (c0 :: cs))) := by
        simp only [mmrGo, hlt, if_true, hscore]
      rw [step]
      have hkeq : sel.length + (m + 1) =
          (sel ++ [argmaxFirst (fun j => sims.getD j 0) (c0 :: cs)]).length + m := by
        simp only [List.length_append, List.length_cons, List.length_nil]
        omega
      rw [hkeq, ih]
      simp [greedyPick]

/-- `simOrd` is reflexive. -/
theorem simOrd_refl (sims : List ℚ) (i : ℕ) : simOrd sims i i :=
  Or.inr ⟨rfl, le_refl i⟩

/-- On an ascending candidate pool, repeated first-maximum extraction of `n`
elements is the length-`n` prefix of the stable descending sort. -/
theorem greedyPick_eq_take_sort (sims : List ℚ) :
    ∀ (n : ℕ) (c : List ℕ), List.Pairwise (· < ·) c →
      greedyPick (fun j => sims.getD j 0) n c =
        (List.insertionSort (simOrd sims) c).take n := by
  intro n
  induction n with
  | zero => intro c _; simp [greedyPick]
  | succ m ih =>
    intro c hp
    match c with
    | [] => simp [greedyPick]
    | c0 :: cs =>
      have hperm : List.Perm (List.insertionSort (simOrd sims) (c0 :: cs)) (c0 :: cs) :=
        List.perm_insertionSort _ _
      have hsorted : List.Sorted (simOrd sims) (List.insertionSort (simOrd sims) (c0 :: cs)) :=
        List.sorted_insertionSort _ _
      match hs : List.insertionSort (simOrd sims) (c0 :: cs) with
      | [] =>
        exfalso
        rw [hs] at hperm
        have := hperm.length_eq
        simp at this
      | s0 :: t =>
        rw [hs] at hperm hsorted
        have hbmem : argmaxFirst (fun j => sims.getD j 0) (c0 :: cs) ∈ c0 :: cs :=
          argmaxFirst_mem _ c0 cs
        have hs0mem : s0 ∈ c0 :: cs := hperm.subset (List.mem_cons_self s0 t)
        have hrbs : simOrd sims (argmaxFirst (fun j => sims.getD j 0) (c0 :: cs)) s0 :=
          argmaxFirst_simOrd sims (c0 :: cs) hp s0 hs0mem
        have hrsb : simOrd sims s0 (argmaxFirst (fun j => sims.getD j 0) (c0 :: cs)) := by
          have hbmem' : argmaxFirst (fun j => sims.getD j 0) (c0 :: cs) ∈ s0 :: t :=
            hperm.symm.subset hbmem
          rcases List.mem_cons.mp hbmem' with heq | hmem
          · rw [heq]; exact simOrd_refl sims s0
          · exact List.rel_of_sorted_cons hsorted _ hmem
        have hbs0 : argmaxFirst (fun j => sims.getD j 0) (c0 :: cs) = s0 :=
          IsAntisymm.antisymm (r := simOrd sims) _ _ hrbs hrsb
        have ht_sorted : List.Sorted (simOrd sims) t := hsorted.of_cons
        have herase_perm : List.Perm ((c0 :: cs).erase s0) t := by
          have h1 := (hperm.symm).erase s0
          rw [List.erase_cons_head] at h1
          exact h1
        have ht_eq : List.insertionSort (simOrd sims) ((c0 :: cs).erase s0) = t := by
          refine List.eq_of_perm_of_sorted
            ((List.perm_insertionSort _ _).trans herase_perm)
            (List.sorted_insertionSort _ _) ht_sorted
        have hp' : List.Pairwise (· < ·) ((c0 :: cs).erase s0) :=
          List.Pairwise.sublist (List.erase_sublist s0 (c0 :: cs)) hp
        show argmaxFirst (fun j => sims.getD j 0) (c0 :: cs) ::
            greedyPick (fun j => sims.getD j 0) m
              ((c0 :: cs).erase (argmaxFirst (fun j => sims.getD j 0) (c0 :: cs))) =
          (s0 :: t).take (m + 1)
        rw [hbs0, ih _ hp', ht_eq]
        rfl

/-- One extraction step of `greedyPick` on a non-empty pool. -/
theorem greedyPick_succ (f : ℕ → ℚ) (n : ℕ) (c : List ℕ) (hc : c ≠ []) :
    greedyPick f (n + 1) c =
      argmaxFirst f c :: greedyPick f n (c.erase (argmaxFirst f c)) := by
  match c with
  | [] => exact absurd rfl hc
  | c0 :: cs => rfl

/-- C7 counterexample: with `λ = 1` and target count `k = 0` on the one-vector
candidate matrix `[[1]]`, `_mmr_indices` still returns one selected index,
while the `k = 0` highest-similarity candidates are none at all. -/
theorem mmr_lam_one_k_zero :
    mmr_indices [[(1 : ℚ)]] [(1 : ℚ)] 0 1 = [0] ∧
      (rank_chunks [[(1 : ℚ)]] [(1 : ℚ)]).take
        (min 0 ([[(1 : ℚ)]] : List (List ℚ)).length) = [] := by
  constructor
  · rw [mmr_indices]
    simp [mmrGo, argmaxFirst, List.range_succ]
  · simp

/-- C7 (amended): for every non-empty candidate matrix, query vector, and
target count `k ≥ 1`, MMR selection with trade-off weight `λ = 1` returns
exactly the first `min k N` entries of the stable descending-similarity
ranking — the `min k N` highest-similarity candidates in descending order,
ties broken toward the lower index.  (At `k = 0` the source still selects
one candidate, see the counterexample.) -/
theorem mmr_lam_one_top_k (E : List (List ℚ)) (qv : List ℚ) (k : ℕ)
    (hE : E ≠ []) (hk : 1 ≤ k) :
    mmr_indices E qv k 1 = (rank_chunks E qv).take (min k E.length) := by
  have hN : ¬ E.length = 0 := fun h => hE (List.eq_nil_of_length_eq_zero h)
  rw [mmr_indices]
  simp only [hN, if_false]
  set sims := E.map (fun row => dot row qv) with hsims
  set i0 := argmaxFirst (fun j => sims.getD j 0) (List.range E.length) with hi0
  have hk1 : 1 ≤ min k E.length := le_min hk (by omega)
  have hkeq : min k E.length = [i0].length + (min k E.length - 1) := by
    simp only [List.length_cons, List.length_nil]
    omega
  rw [hkeq, mmrGo_lam_one]
  have hrange_ne : List.range E.length ≠ [] := by
    intro h
    have hl := List.length_range E.length
    rw [h] at hl
    simp at hl
    omega
  have hstep := greedyPick_succ (fun j => sims.getD j 0) (min k E.length - 1)
    (List.range E.length) hrange_ne
  have hgreedy := greedyPick_eq_take_sort sims (min k E.length - 1 + 1)
    (List.range E.length) (List.pairwise_lt_range E.length)
  have hm1 : min k E.length - 1 + 1 = min k E.length := by omega
  have hchunks : rank_chunks E qv =
      List.insertionSort (simOrd sims) (List.range E.length) := by
    rw [rank_chunks, rank_by_sim, ← hsims, List.length_map]
  rw [List.singleton_append, hchunks]
  have htake : [i0].length + (min k E.length - 1) = min k E.length := by
    simp only [List.length_cons, List.length_nil]
    omega
  rw [htake]
  rw [← hi0] at hstep
  rw [hstep, hm1] at hgreedy
  exact hgreedy

/-- Witness for the amended C7 at the concrete matrix `[[1],[0]]`, query
`[1]`, `k = 1`. -/
theorem mmr_lam_one_top_k_witness :
    (([[(1 : ℚ)], [0]] : List (List ℚ)) ≠ [] ∧ 1 ≤ 1) ∧
      mmr_indices [[(1 : ℚ)], [0]] [1] 1 1 =
        (rank_chunks [[(1 : ℚ)], [0]] [1]).take
          (min 1 ([[(1 : ℚ)], [0]] : List (List ℚ)).length) :=
  ⟨⟨by decide, by decide⟩,
    mmr_lam_one_top_k [[(1 : ℚ)], [0]] [1] 1 (by decide) (by decide)⟩

/-! ## Relevance Judge (`_llm_rerank`, rag_service.py lines 135-182)

The external chat call and the JSON extraction are the judge's inputs:
either the call raised (`Except.error`), or no JSON object / no list-shaped
`rank` field was found (`Option.none`), or a list of JSON array entries was
found — each entry an integer or something else.  Everything after that
point (sanitization, dedup, cap, fallback) is the source's own logic. -/

/-- One entry of the parsed `rank` array. -/
inductive JEntry where
  | int (n : ℤ)
  | other

/-- The dedup loop `for x in cand: if x not in seen: out.append(x) ...`
with a `seen` accumulator; combined with the cap `if len(out) >= k: break`
it returns the first `k` distinct values in order. -/
def dedupGo : List ℕ → List ℕ → List ℕ
  | _, [] => []
  | seen, x :: xs => if x ∈ seen then dedupGo seen xs else x :: dedupGo (x :: seen) xs

/-- `cand = [int(x) for x in rank if isinstance(x, int) and 0 <= x < n]`
followed by dedup-in-order capped at `k`. -/
def sanitize_rank (n k : ℕ) (rank : List JEntry) : List ℕ :=
  let cand := rank.filterMap (fun e => match e with
    | JEntry.int x => if 0 ≤ x ∧ x < (n : ℤ) then some x.toNat else none
    | JEntry.other => none)
  (dedupGo [] cand).take k

/-- `_llm_rerank(question, texts, k)` as a function of the chat outcome and
`n = len(texts)`: clamp `k` to `max(1, min(k, n))`, return the sanitized
ranking if it is non-empty, otherwise (or on any upstream failure) the
identity ordering `list(range(k))`. -/
def llm_rerank (chat : Except Unit (Option (List JEntry))) (k n : ℕ) : List ℕ :=
  let kc := max 1 (min k n)
  match chat with
  | Except.error _ => List.range kc
  | Except.ok none => List.range kc
  | Except.ok (some rank) =>
    let out := sanitize_rank n kc rank
    if out = [] then List.range kc else out

/-- C9: the relevance judge never raises (it is a total function of the chat
outcome), and for every non-empty candidate list and every requested count
`1 ≤ k ≤ n`, if the model call failed, or produced no list-shaped ranking,
or the ranking sanitizes to nothing, the result is the identity ordering
`[0, 1, ..., k-1]` of the first `k` candidates. -/
theorem llm_rerank_fallback_identity (chat : Except Unit (Option (List JEntry)))
    (k n : ℕ) (_hn : 1 ≤ n) (hk1 : 1 ≤ k) (hkn : k ≤ n)
    (hfail : chat = Except.error () ∨ chat = Except.ok none ∨
      ∃ rank, chat = Except.ok (some rank) ∧
        sanitize_rank n (max 1 (min k n)) rank = []) :
    llm_rerank chat k n = List.range k := by
  have hclamp : max 1 (min k n) = k := by omega
  rcases hfail with rfl | rfl | ⟨rank, rfl, hsan⟩
  · rw [llm_rerank]
    rw [hclamp]
  · rw [llm_rerank]
    rw [hclamp]
  · rw [llm_rerank]
    simp only [hclamp] at hsan ⊢
    rw [hsan]
    simp

/-- Witness for C9: a chat outcome whose ranking holds only out-of-range,
negative, and non-integer entries, with `k = n = 2`. -/
theorem llm_rerank_fallback_identity_witness :
    (1 ≤ 2 ∧ 1 ≤ 2 ∧ 2 ≤ 2 ∧
      (Except.ok (some [JEntry.int 5, JEntry.other, JEntry.int (-1)]) =
          (Except.error () : Except Unit (Option (List JEntry))) ∨
        Except.ok (some [JEntry.int 5, JEntry.other, JEntry.int (-1)]) =
          (Except.ok none : Except Unit (Option (List JEntry))) ∨
        ∃ rank, (Except.ok (some [JEntry.int 5, JEntry.other, JEntry.int (-1)]) :
            Except Unit (Option (List JEntry))) = Except.ok (some rank) ∧
          sanitize_rank 2 (max 1 (min 2 2)) rank = [])) ∧
    llm_rerank (Except.ok (some [JEntry.int 5, JEntry.other, JEntry.int (-1)])) 2 2 =
      List.range 2 :=
  ⟨⟨by decide, by decide, by decide,
      Or.inr (Or.inr ⟨[JEntry.int 5, JEntry.other, JEntry.int (-1)], rfl, by rfl⟩)⟩,
    llm_rerank_fallback_identity _ 2 2 (by decide) (by decide) (by decide)
      (Or.inr (Or.inr ⟨[JEntry.int 5, JEntry.other, JEntry.int (-1)], rfl, by rfl⟩))⟩

/-- Sanitizing against an empty candidate list discards everything. -/
theorem sanitize_rank_zero (k : ℕ) (rank : List JEntry) :
    sanitize_rank 0 k rank = [] := by
  unfold sanitize_rank
  have hcand : rank.filterMap (fun e => match e with
      | JEntry.int x => if 0 ≤ x ∧ x < ((0 : ℕ) : ℤ) then some x.toNat else none
      | JEntry.other => none) = [] := by
    induction rank with
    | nil => rfl
    | cons e rest ih =>
      match e with
      | JEntry.int x =>
        have hx : ¬ (0 ≤ x ∧ x < ((0 : ℕ) : ℤ)) := by
          push_neg
          intro h
          omega
        simp only [List.filterMap_cons, hx, if_false]
        exact ih
      | JEntry.other =>
        simp only [List.filterMap_cons]
        exact ih
  rw [hcand]
  simp [dedupGo]

/-- C10: called with an empty candidate list, the judge's internal count is
clamped to `max(1, min(k, 0)) = 1` and every outcome — fallback or not —
returns `[0]`, a single index referring to no candidate; in general the
fallback result has length `max(1, min(k, n))` and is never empty. -/
theorem llm_rerank_empty_clamp :
    (∀ (chat : Except Unit (Option (List JEntry))) (k : ℕ),
      llm_rerank chat k 0 = [0]) ∧
    (∀ (chat : Except Unit (Option (List JEntry))) (k n : ℕ),
      (chat = Except.error () ∨ chat = Except.ok none ∨
        ∃ rank, chat = Except.ok (some rank) ∧
          sanitize_rank n (max 1 (min k n)) rank = []) →
      (llm_rerank chat k n).length = max 1 (min k n) ∧
        llm_rerank chat k n ≠ []) := by
  constructor
  · intro chat k
    have hclamp : max 1 (min k 0) = 1 := by omega
    match chat with
    | Except.error _ => rw [llm_rerank, hclamp]; rfl
    | Except.ok none => rw [llm_rerank, hclamp]; rfl
    | Except.ok (some rank) =>
      rw [llm_rerank]
      simp only [hclamp, sanitize_rank_zero, if_true]
      rfl
  · intro chat k n hfail
    have hres : llm_rerank chat k n = List.range (max 1 (min k n)) := by
      rcases hfail with rfl | rfl | ⟨rank, rfl, hsan⟩
      · rw [llm_rerank]
      · rw [llm_rerank]
      · rw [llm_rerank]
        simp only [hsan, if_true]
    rw [hres]
    constructor
    · exact List.length_range _
    · intro hnil
      have := List.length_range (max 1 (min k n))
      rw [hnil] at this
      simp at this
      omega

/-- Witness for C10: both conjuncts at concrete inputs — an empty candidate
list with `k = 3`, and a failing chat call with `k = 2`, `n = 5`. -/
theorem llm_rerank_empty_clamp_witness :
    llm_rerank (Except.ok (some [JEntry.int 0])) 3 0 = [0] ∧
      ((Except.error () = (Except.error () : Except Unit (Option (List JEntry))) ∨
          (Except.error () : Except Unit (Option (List JEntry))) = Except.ok none ∨
          ∃ rank, (Except.error () : Except Unit (Option (List JEntry))) =
              Except.ok (some rank) ∧
            sanitize_rank 5 (max 1 (min 2 5)) rank = []) ∧
        (llm_rerank (Except.error ()) 2 5).length = max 1 (min 2 5) ∧
          llm_rerank (Except.error ()) 2 5 ≠ []) :=
  ⟨llm_rerank_empty_clamp.1 (Except.ok (some [JEntry.int 0])) 3,
    ⟨Or.inl rfl,
      llm_rerank_empty_clamp.2 (Except.error ()) 2 5 (Or.inl rfl)⟩⟩
